import Mathlib

/-
Verification of the lookup core of a Kademlia-style DHT.

The development shallowly embeds two source files:
  qpeerset/qpeerset.go - the per-lookup peer-state container QueryPeerset, and
  lookup.go            - the caller-facing entry point GetClosestPeers.

Modelling conventions:
  peer.ID and key-space points are natural numbers; the one-way hash of the
  external key space (ks.XORKeySpace.Key, a sha256 of the identifier bytes)
  is an abstract function toPoint stored in the structure, and XOR distance
  between hashed points is Nat.xor.  big.Int distances are non-negative, so
  they are Nat here; big.Int.Cmp is modelled on Int with explicit sign values.
  Go methods that mutate the receiver become functions returning the updated
  structure; Go panics (negative slice index, out-of-range slice bound)
  become Option results where none marks the panic.  The global scorer toggle
  metrics.CMD_PeerRH and the scorer metrics.GPeerRH.GetScore are modelled by
  passing the comparator (or the score function) as an explicit parameter.
  The scorer output is a float in Go, used only through an ordered comparison;
  it is modelled as an Int-valued score, which preserves exactly the ordering
  structure the code consumes.
-/

namespace KadLookup

/-- PeerState describes the state of a peer ID during the lifecycle of an
individual lookup, as the four-constant enum of qpeerset.go. -/
inductive PeerState where
  | PeerHeard
  | PeerWaiting
  | PeerQueried
  | PeerUnreachable
  deriving DecidableEq, Repr

/-- Model of peer.ID: an opaque comparable identifier. -/
abbrev PeerId := Nat

/-- One record of the peer set: identity, distance to the target, lifecycle
state, and the peer that referred it (queryPeerState in the source). -/
structure queryPeerState where
  id : PeerId
  distance : Nat
  state : PeerState
  referredBy : PeerId
  deriving DecidableEq, Repr

/-- QueryPeerset maintains the state of a Kademlia asynchronous lookup: the
hashed target key, the list of all known peers, and the lazy-sort flag.
The field toPoint is the external key-space hash applied to peer
identifiers (ks.XORKeySpace.Key on the identifier bytes). -/
structure QueryPeerset where
  key : Nat
  toPoint : PeerId → Nat
  all : List queryPeerState
  sorted : Bool

/-- NewQueryPeerset creates a new empty set of peers for the target
identifier kt: key is the hashed target, all is empty, sorted is false. -/
def NewQueryPeerset (toPoint : PeerId → Nat) (kt : Nat) : QueryPeerset :=
  { key := toPoint kt, toPoint := toPoint, all := [], sorted := false }

/-- The find method: linear scan returning the index of the first record
with the given identity, or -1 when absent (Go returns an int). -/
def QueryPeerset.find (qp : QueryPeerset) (p : PeerId) : Int :=
  match List.findIdx? (fun r => r.id == p) qp.all with
  | some i => (i : Int)
  | none => -1

/-- distanceToKey: XOR distance from the hashed peer identifier to the
hashed target key. -/
def QueryPeerset.distanceToKey (qp : QueryPeerset) (p : PeerId) : Nat :=
  Nat.xor (qp.toPoint p) qp.key

/-- TryAdd adds the peer p to the peer set.  If the peer is already present,
no action is taken; otherwise it is appended with state PeerHeard and the
computed distance, and the sorted flag is cleared.  The boolean result is
true iff the peer was not already present. -/
def QueryPeerset.TryAdd (qp : QueryPeerset) (p referredBy : PeerId) :
    Bool × QueryPeerset :=
  if 0 ≤ qp.find p then
    (false, qp)
  else
    (true,
      { qp with
        all := qp.all ++
          [{ id := p, distance := qp.distanceToKey p,
             state := PeerState.PeerHeard, referredBy := referredBy }],
        sorted := false })

/-- Generic comparison of two records by an Int-valued key computed from the
stored distance and the identity.  Both branches of the source comparator
sortedQueryPeerset.Less have this shape: with the scorer disabled the key is
the plain distance (di.Cmp(dj) == -1), with the scorer enabled the key is
GetScore(distance, id) and the comparator returns isLess == -1. -/
def lessKey (k : Nat → PeerId → Int) (a b : queryPeerState) : Bool :=
  k a.distance a.id < k b.distance b.id

/-- The comparator with the scorer disabled: ascending plain distance. -/
def lessDistance : queryPeerState → queryPeerState → Bool :=
  lessKey (fun d _ => (d : Int))

/-- The comparator with the scorer enabled: ascending scorer output. -/
def lessScored (score : Nat → PeerId → Int) :
    queryPeerState → queryPeerState → Bool :=
  lessKey score

/-- The sort method: a no-op when the sorted flag is set, and otherwise a
permutation of the record list ordered by the comparator, after which the
flag is set.  Go sort.Sort guarantees exactly a permutation that is
non-decreasing with respect to the Less comparator (it is unstable, so the
permutation itself is unspecified); mergeSort on the complement relation
realises one such permutation. -/
def QueryPeerset.sort (less : queryPeerState → queryPeerState → Bool)
    (qp : QueryPeerset) : QueryPeerset :=
  if qp.sorted then qp
  else { qp with all := qp.all.mergeSort (fun a b => !(less b a)), sorted := true }

/-- SetState sets the state of peer p to s by writing through the index
returned by find.  When p is absent, find returns -1 and the Go indexing
expression qp.all[-1] panics: modelled as none. -/
def QueryPeerset.SetState (qp : QueryPeerset) (p : PeerId) (s : PeerState) :
    Option QueryPeerset :=
  let i := qp.find p
  if 0 ≤ i then
    some { qp with all := qp.all.modify (fun r => { r with state := s }) i.toNat }
  else
    none

/-- GetState returns the state of peer p, reading through the index returned
by find; absence panics in Go (index -1), modelled as none. -/
def QueryPeerset.GetState (qp : QueryPeerset) (p : PeerId) : Option PeerState :=
  let i := qp.find p
  if 0 ≤ i then (qp.all[i.toNat]?).map (fun r => r.state) else none

/-- GetReferrer returns the peer that referred us to peer p; absence panics
in Go (index -1), modelled as none. -/
def QueryPeerset.GetReferrer (qp : QueryPeerset) (p : PeerId) : Option PeerId :=
  let i := qp.find p
  if 0 ≤ i then (qp.all[i.toNat]?).map (fun r => r.referredBy) else none

/-- GetClosestNInStates: sort (lazily), keep the identities of records whose
state lies in the given set (the Go code materialises the set as a map and
tests membership), then truncate.  The Go code returns result[:n] whenever
len(result) >= n; for negative n that branch is always taken and the slice
expression panics, modelled as none.  The second component is the peer set
after the lazy sort (the receiver is mutated in Go). -/
def QueryPeerset.GetClosestNInStates
    (less : queryPeerState → queryPeerState → Bool) (qp : QueryPeerset)
    (n : Int) (states : List PeerState) :
    Option (List PeerId) × QueryPeerset :=
  let qps := qp.sort less
  let result := (qps.all.filter (fun r => decide (r.state ∈ states))).map
    (fun r => r.id)
  if n ≤ (result.length : Int) then
    (if 0 ≤ n then some (result.take n.toNat) else none, qps)
  else
    (some result, qps)

/-- GetClosestInStates: GetClosestNInStates with n equal to the size of the
whole record list. -/
def QueryPeerset.GetClosestInStates
    (less : queryPeerState → queryPeerState → Bool) (qp : QueryPeerset)
    (states : List PeerState) : Option (List PeerId) × QueryPeerset :=
  qp.GetClosestNInStates less (qp.all.length : Int) states

/-- NumHeard returns the number of peers in state PeerHeard. -/
def QueryPeerset.NumHeard (less : queryPeerState → queryPeerState → Bool)
    (qp : QueryPeerset) : Nat :=
  ((qp.GetClosestInStates less [PeerState.PeerHeard]).1.getD []).length

/-- NumWaiting returns the number of peers in state PeerWaiting. -/
def QueryPeerset.NumWaiting (less : queryPeerState → queryPeerState → Bool)
    (qp : QueryPeerset) : Nat :=
  ((qp.GetClosestInStates less [PeerState.PeerWaiting]).1.getD []).length

/-- The two observability counters of the global scorer object
metrics.GPeerRH consumed by the comparator: AllCmp counts every comparison,
Compromise counts scorer-vs-distance disagreements. -/
structure PeerRHMetrics where
  allCmp : Nat
  compromise : Nat
  deriving DecidableEq, Repr

/-- Model of big.Int.Cmp on the (non-negative, hence Int-embedded)
distances: -1, 0 or 1 by sign. -/
def cmpInt (a b : Int) : Int :=
  if a < b then -1 else if a = b then 0 else 1

/-- The scorer-enabled branch of sortedQueryPeerset.Less with its metric
side effects made explicit: compute the two scores, derive the three-way
comparison isLess, increment Compromise when the product of the plain
distance comparison and isLess is -1, increment AllCmp unconditionally, and
return whether isLess is -1. -/
def lessWithMetrics (score : Nat → PeerId → Int) (a b : queryPeerState)
    (m : PeerRHMetrics) : Bool × PeerRHMetrics :=
  let old_di : Int := (a.distance : Int)
  let old_dj : Int := (b.distance : Int)
  let di := score a.distance a.id
  let dj := score b.distance b.id
  let isLess : Int := if di < dj then -1 else if di = dj then 0 else 1
  let m1 := if cmpInt old_di old_dj * isLess = -1 then
    { m with compromise := m.compromise + 1 } else m
  let m2 := { m1 with allCmp := m1.allCmp + 1 }
  (decide (isLess = -1), m2)

/-- The mutating operations a lookup performs on its QueryPeerset: TryAdd,
SetState, and the lazy sort implied by GetClosestNInStates. -/
inductive QOp where
  | tryAdd (p referredBy : PeerId)
  | setState (p : PeerId) (s : PeerState)
  | getClosestN (n : Int) (states : List PeerState)

/-- Whether the operation triggers the lazy sort (only the retrieval does). -/
def QOp.usesSort : QOp → Bool
  | QOp.getClosestN _ _ => true
  | _ => false

/-- State effect of one operation on the peer set.  A SetState whose target
is absent panics in Go, so no successor state arises from it; getD keeps the
pre-state so that reachability quantifies over non-panicking runs. -/
def applyOp (less : queryPeerState → queryPeerState → Bool)
    (qp : QueryPeerset) : QOp → QueryPeerset
  | QOp.tryAdd p r => (qp.TryAdd p r).2
  | QOp.setState p s => (qp.SetState p s).getD qp
  | QOp.getClosestN n states => (qp.GetClosestNInStates less n states).2

/-- State after a sequence of operations. -/
def applyOps (less : queryPeerState → queryPeerState → Bool)
    (qp : QueryPeerset) (ops : List QOp) : QueryPeerset :=
  ops.foldl (applyOp less) qp

/-- The Int key of a record under the key function k. -/
def keyOf (k : Nat → PeerId → Int) (r : queryPeerState) : Int :=
  k r.distance r.id

/-- Comparator order as a relation: non-decreasing key. -/
def leKey (k : Nat → PeerId → Int) (a b : queryPeerState) : Prop :=
  keyOf k a ≤ keyOf k b

/-- The lazy-sort invariant: whenever the sorted flag is set, the record
list is in comparator order. -/
def SortInv (k : Nat → PeerId → Int) (qp : QueryPeerset) : Prop :=
  qp.sorted = true → qp.all.Pairwise (leKey k)

/-- Membership of an identity in the peer set. -/
def Present (qp : QueryPeerset) (p : PeerId) : Prop :=
  ∃ r ∈ qp.all, r.id = p

/-
Embedding of lookup.go, GetClosestPeers.  The function checks the key,
runs the lookup engine, copies the resulting peers into the output channel,
signals the routing table when the lookup completed with the context alive,
and returns the channel together with ctx.Err().  The execution context is
modelled by whether it has been cancelled; its Err() is none exactly when it
is not cancelled.
-/

/-- Result of the lookup engine as GetClosestPeers consumes it: the peers
found (best first) and whether the lookup terminated by natural exhaustion
(lookupWithFollowupResult in the engine sources). -/
structure LookupResult where
  peers : List PeerId
  completed : Bool
  deriving DecidableEq, Repr

/-- The errors GetClosestPeers can surface to its caller. -/
inductive LookupErr where
  | emptyKey
  | ctxCancelled
  deriving DecidableEq, Repr

/-- Observable outcome of one GetClosestPeers call: the output channel
contents (none when the Go function returns a nil channel), the returned
error, and whether ResetCplRefreshedAtForID was signalled on the routing
table. -/
structure GetClosestPeersOut where
  out : Option (List PeerId)
  err : Option LookupErr
  refreshedCpl : Bool
  deriving DecidableEq, Repr

/-- Modelled from the spec: runLookupWithFollowup, the lookup engine called
by GetClosestPeers, is not among the sources under review.  Per the spec,
per-peer query failures are absorbed into peer state and never propagate;
only cancellation and invalid input reach the caller, and a lookup cancelled
mid-flight still hands back the best partial result found so far with the
completed flag false (completed means natural exhaustion, not cancellation
or early stop).  The engine therefore returns a result and no direct error;
found is the sequence of peers discovered so far and exhausted records
whether the dispatch loop ran out of work before any cancellation. -/
def runLookupWithFollowup (ctxCancelled : Bool) (found : List PeerId)
    (exhausted : Bool) : LookupResult × Option LookupErr :=
  ({ peers := found, completed := exhausted && !ctxCancelled }, none)

/-- GetClosestPeers of lookup.go, given the engine outcome: reject the empty
key before touching the engine, propagate an engine error with a nil
channel, otherwise emit the found peers, refresh the routing-table bucket
timestamp exactly when ctx.Err() == nil and the lookup completed, and return
ctx.Err(). -/
def GetClosestPeers (ctxCancelled : Bool) (key : String)
    (engine : LookupResult × Option LookupErr) : GetClosestPeersOut :=
  if key = "" then
    { out := none, err := some LookupErr.emptyKey, refreshedCpl := false }
  else
    match engine with
    | (_, some e) => { out := none, err := some e, refreshedCpl := false }
    | (lookupRes, none) =>
      let ctxErr : Option LookupErr :=
        if ctxCancelled then some LookupErr.ctxCancelled else none
      { out := some lookupRes.peers,
        err := ctxErr,
        refreshedCpl := !ctxCancelled && lookupRes.completed }

/-- One whole GetClosestPeers call: the entry point applied to the
spec-modelled engine outcome. -/
def GetClosestPeersRun (ctxCancelled : Bool) (key : String)
    (found : List PeerId) (exhausted : Bool) : GetClosestPeersOut :=
  GetClosestPeers ctxCancelled key (runLookupWithFollowup ctxCancelled found exhausted)

/-
Helper lemmas shared by the claim theorems below.
-/

lemma find_nonneg_iff (qp : QueryPeerset) (p : PeerId) :
    0 ≤ qp.find p ↔ Present qp p := by
  unfold QueryPeerset.find Present
  cases h : List.findIdx? (fun r => r.id == p) qp.all with
  | some i =>
    rcases List.findIdx?_eq_some_iff_getElem.mp h with ⟨hlt, hp, _⟩
    simp only [true_iff, Int.natCast_nonneg]
    exact ⟨qp.all[i], List.getElem_mem hlt, by simpa using hp⟩
  | none =>
    rw [List.findIdx?_eq_none_iff] at h
    constructor
    · intro h0; exact absurd h0 (by norm_num)
    · rintro ⟨r, hr, hid⟩
      have := h r hr
      simp [hid] at this

lemma tryAdd_of_present (qp : QueryPeerset) (p r : PeerId) (h : Present qp p) :
    qp.TryAdd p r = (false, qp) := by
  unfold QueryPeerset.TryAdd
  rw [if_pos ((find_nonneg_iff qp p).mpr h)]

lemma tryAdd_of_absent (qp : QueryPeerset) (p r : PeerId) (h : ¬ Present qp p) :
    qp.TryAdd p r = (true,
      { qp with
        all := qp.all ++
          [{ id := p, distance := Nat.xor (qp.toPoint p) qp.key,
             state := PeerState.PeerHeard, referredBy := r }],
        sorted := false }) := by
  unfold QueryPeerset.TryAdd QueryPeerset.distanceToKey
  rw [if_neg (fun hc => h ((find_nonneg_iff qp p).mp hc))]

lemma present_tryAdd_self (qp : QueryPeerset) (p r : PeerId) :
    Present (qp.TryAdd p r).2 p := by
  by_cases h : Present qp p
  · rw [tryAdd_of_present qp p r h]; exact h
  · rw [tryAdd_of_absent qp p r h]
    exact ⟨_, List.mem_append_right _ (List.mem_singleton.mpr rfl), rfl⟩

/-
Claim theorems.
-/

/-- C2: TryAdd is idempotent.  Re-adding a present identity returns false
and leaves the peer set unchanged (same records, hence same distance, state
and referrer); adding an absent identity returns true and appends a record
in state PeerHeard whose distance is the XOR of the hashed identity with the
hashed target; and a second TryAdd of the same identity always returns false
and changes nothing. -/
theorem tryAdd_idempotent (qp : QueryPeerset) (p r r2 : PeerId) :
    (Present qp p → qp.TryAdd p r = (false, qp)) ∧
    (¬ Present qp p → qp.TryAdd p r = (true,
      { qp with
        all := qp.all ++
          [{ id := p, distance := Nat.xor (qp.toPoint p) qp.key,
             state := PeerState.PeerHeard, referredBy := r }],
        sorted := false })) ∧
    ((qp.TryAdd p r).2.TryAdd p r2 = (false, (qp.TryAdd p r).2)) :=
  ⟨tryAdd_of_present qp p r, tryAdd_of_absent qp p r,
    tryAdd_of_present _ p r2 (present_tryAdd_self qp p r)⟩

/-- Witness for C2 at a concrete peer set: the second add of identity 3 is
rejected and the state is unchanged. -/
theorem tryAdd_idempotent_witness :
    ((NewQueryPeerset id 0).TryAdd 3 0).2.TryAdd 3 9 =
      (false, ((NewQueryPeerset id 0).TryAdd 3 0).2) :=
  (tryAdd_idempotent ((NewQueryPeerset id 0).TryAdd 3 0).2 3 9 9).1
    (by unfold Present; decide)

/-- C10: the truncation is total only for non-negative n.  For every
negative n the length check len(result) >= n is satisfied, hence the Go
code evaluates result[:n], which panics (modelled as none); for n = 0 the
call returns the empty sequence. -/
theorem getClosestNInStates_negative_n
    (less : queryPeerState → queryPeerState → Bool) (qp : QueryPeerset)
    (states : List PeerState) :
    (∀ n : Int, n < 0 → (qp.GetClosestNInStates less n states).1 = none) ∧
    (qp.GetClosestNInStates less 0 states).1 = some [] := by
  constructor
  · intro n hn
    unfold QueryPeerset.GetClosestNInStates
    rw [if_pos (le_trans (le_of_lt hn) (Int.natCast_nonneg _)),
      if_neg (by omega)]
  · unfold QueryPeerset.GetClosestNInStates
    rw [if_pos (Int.natCast_nonneg _), if_pos le_rfl]
    simp

/-- Witness for C10: the concrete call with n = -1 panics. -/
theorem getClosestNInStates_negative_n_witness :
    ((NewQueryPeerset id 0).GetClosestNInStates lessDistance (-1) []).1 = none :=
  (getClosestNInStates_negative_n lessDistance (NewQueryPeerset id 0) []).1
    (-1) (by decide)

/-- C5: GetClosestPeers errors exactly on an empty key or a cancelled
context; the empty key is rejected before the engine outcome is even
consulted (the result is one fixed value for every engine outcome, so no
lookup state or network activity can influence it); and on cancellation
with a valid key the peers found so far are still emitted alongside the
cancellation error. -/
theorem getClosestPeers_error_iff (ctxC : Bool) (key : String)
    (found : List PeerId) (exh : Bool) :
    ((GetClosestPeersRun ctxC key found exh).err ≠ none ↔
      (key = "" ∨ ctxC = true)) ∧
    (∀ engine, GetClosestPeers ctxC "" engine =
      { out := none, err := some LookupErr.emptyKey, refreshedCpl := false }) ∧
    (key ≠ "" → ctxC = true →
      (GetClosestPeersRun ctxC key found exh).out = some found ∧
      (GetClosestPeersRun ctxC key found exh).err = some LookupErr.ctxCancelled) := by
  unfold GetClosestPeersRun GetClosestPeers runLookupWithFollowup
  by_cases hk : key = "" <;> cases ctxC <;> simp [hk]

/-- Witness for C5: cancellation with a non-empty key returns the partial
result together with the cancellation error. -/
theorem getClosestPeers_error_iff_witness :
    (GetClosestPeersRun true "k" [7, 4] false).out = some [7, 4] ∧
    (GetClosestPeersRun true "k" [7, 4] false).err = some LookupErr.ctxCancelled :=
  (getClosestPeers_error_iff true "k" [7, 4] false).2.2 (by decide) rfl

/-- C6: the routing-table refresh signal is sent iff the lookup completed
naturally and the context is still alive when the result is assembled; a
cancelled context or an incomplete lookup never triggers it, nor does the
empty-key early return. -/
theorem getClosestPeers_refresh_iff (ctxC : Bool) (key : String)
    (found : List PeerId) (exh : Bool) :
    (key ≠ "" →
      ((GetClosestPeersRun ctxC key found exh).refreshedCpl = true ↔
        ((runLookupWithFollowup ctxC found exh).1.completed = true ∧
          ctxC = false))) ∧
    (ctxC = true → (GetClosestPeersRun ctxC key found exh).refreshedCpl = false) ∧
    (key = "" → (GetClosestPeersRun ctxC key found exh).refreshedCpl = false) := by
  unfold GetClosestPeersRun GetClosestPeers runLookupWithFollowup
  by_cases hk : key = "" <;> cases ctxC <;> cases exh <;> simp [hk]

/-- Witness for C6: with a live context and an exhausted dispatch loop the
refresh is signalled. -/
theorem getClosestPeers_refresh_iff_witness :
    (GetClosestPeersRun false "k" [2] true).refreshedCpl = true :=
  ((getClosestPeers_refresh_iff false "k" [2] true).1 (by decide)).mpr
    ⟨rfl, rfl⟩

/-- C9: the scorer-enabled comparator increments the total-comparison
counter by exactly one on every call, increments the disagreement counter
by exactly one precisely when the scorer order and the plain-distance order
strictly disagree (one strictly less where the other is strictly greater),
and the boolean it returns is the pure scorer comparison, independent of
the counters. -/
theorem scorer_divergence_accounting (score : Nat → PeerId → Int)
    (a b : queryPeerState) (m : PeerRHMetrics) :
    ((lessWithMetrics score a b m).2.allCmp = m.allCmp + 1) ∧
    ((lessWithMetrics score a b m).2.compromise = m.compromise +
      (if (a.distance < b.distance ∧
            score b.distance b.id < score a.distance a.id) ∨
          (b.distance < a.distance ∧
            score a.distance a.id < score b.distance b.id)
        then 1 else 0)) ∧
    ((lessWithMetrics score a b m).1 = lessScored score a b) := by
  simp only [lessWithMetrics, lessScored, lessKey, cmpInt]
  refine ⟨by split_ifs <;> rfl, ?_, ?_⟩
  · split_ifs <;> simp_all <;> omega
  · split_ifs <;> simp_all

lemma pred_getElem_modify {α : Type} (p : α → Bool) (f : α → α)
    (hf : ∀ x, p (f x) = p x) (i m : Nat) (l : List α) (hm : m < l.length)
    (hm2 : m < (l.modify f i).length) :
    p ((l.modify f i)[m]) = p (l[m]) := by
  have h := List.getElem?_modify f i l m
  rw [List.getElem?_eq_getElem hm2, List.getElem?_eq_getElem hm] at h
  simp only [Option.map_some] at h
  rw [Option.some_inj.mp h]
  by_cases him : i = m
  · rw [if_pos him, hf]
  · rw [if_neg him]

lemma findIdx?_modify {α : Type} (p : α → Bool) (f : α → α)
    (hf : ∀ x, p (f x) = p x) (i : Nat) (l : List α) :
    List.findIdx? p (l.modify f i) = List.findIdx? p l := by
  cases hj : List.findIdx? p l with
  | none =>
    rw [List.findIdx?_eq_none_iff] at hj ⊢
    intro x hx
    rcases List.mem_iff_getElem?.mp hx with ⟨m, hm⟩
    rcases List.getElem?_eq_some.mp hm with ⟨hmlt, hxval⟩
    have hmlt2 : m < l.length := by
      have := hmlt; rwa [List.length_modify] at this
    rw [← hxval, pred_getElem_modify p f hf i m l hmlt2 hmlt]
    exact hj l[m] (List.getElem_mem hmlt2)
  | some j =>
    rcases List.findIdx?_eq_some_iff_getElem.mp hj with ⟨hjlt, hpj, hmin⟩
    apply List.findIdx?_eq_some_iff_getElem.mpr
    have hjlt2 : j < (l.modify f i).length := by rwa [List.length_modify]
    refine ⟨hjlt2, ?_, ?_⟩
    · rw [pred_getElem_modify p f hf i j l hjlt hjlt2]; exact hpj
    · intro m hmj
      have hmlt : m < l.length := lt_trans hmj hjlt
      have hmlt2 : m < (l.modify f i).length := by rwa [List.length_modify]
      rw [pred_getElem_modify p f hf i m l hmlt hmlt2]
      exact hmin m hmj

lemma find_eq_of_findIdx? (qp : QueryPeerset) (p : PeerId) (i : Nat)
    (h : List.findIdx? (fun r => r.id == p) qp.all = some i) :
    qp.find p = (i : Int) := by
  unfold QueryPeerset.find
  rw [h]

lemma setState_of_findIdx? (qp : QueryPeerset) (p : PeerId) (s : PeerState)
    (i : Nat) (h : List.findIdx? (fun r => r.id == p) qp.all = some i) :
    qp.SetState p s = some
      { qp with all := qp.all.modify (fun r => { r with state := s }) i } := by
  unfold QueryPeerset.SetState
  rw [find_eq_of_findIdx? qp p i h]
  simp only [Int.natCast_nonneg, if_pos, Int.toNat_natCast]

lemma present_findIdx? (qp : QueryPeerset) (p : PeerId) (h : Present qp p) :
    ∃ i, List.findIdx? (fun r => r.id == p) qp.all = some i := by
  have h0 := (find_nonneg_iff qp p).mpr h
  unfold QueryPeerset.find at h0
  cases hj : List.findIdx? (fun r => r.id == p) qp.all with
  | some i => exact ⟨i, rfl⟩
  | none => rw [hj] at h0; exact absurd h0 (by norm_num)

/-- C3: the absence contract of the by-identity accessors.  On an absent
identity, SetState, GetState and GetReferrer all take the find = -1 branch
and the Go indexing expression panics, an outcome distinguishable from every
successful return (none versus some, never a silently wrong result); on a
present identity SetState succeeds and GetState then observes exactly the
state just set. -/
theorem setState_absence_contract (qp : QueryPeerset) (p : PeerId)
    (s : PeerState) :
    (¬ Present qp p →
      qp.SetState p s = none ∧ qp.GetState p = none ∧ qp.GetReferrer p = none) ∧
    (Present qp p →
      ∃ qp2, qp.SetState p s = some qp2 ∧ qp2.GetState p = some s) := by
  constructor
  · intro h
    have hneg : ¬ 0 ≤ qp.find p := fun hc => h ((find_nonneg_iff qp p).mp hc)
    unfold QueryPeerset.SetState QueryPeerset.GetState QueryPeerset.GetReferrer
    rw [if_neg hneg, if_neg hneg, if_neg hneg]
    exact ⟨rfl, rfl, rfl⟩
  · intro h
    rcases present_findIdx? qp p h with ⟨i, hi⟩
    refine ⟨_, setState_of_findIdx? qp p s i hi, ?_⟩
    have hfind2 : List.findIdx? (fun r => r.id == p)
        (qp.all.modify (fun r => { r with state := s }) i) =
        List.findIdx? (fun r => r.id == p) qp.all :=
      findIdx?_modify (fun r => r.id == p) (fun r => { r with state := s })
        (fun x => rfl) i qp.all
    rcases List.findIdx?_eq_some_iff_getElem.mp hi with ⟨hilt, hpi, _⟩
    unfold QueryPeerset.GetState QueryPeerset.find
    simp only [hfind2, hi, Int.natCast_nonneg, if_pos, Int.toNat_natCast]
    rw [List.getElem?_modify, List.getElem?_eq_getElem hilt]
    simp

/-- Witness for C3: on the empty peer set every accessor panics, and after
an add the state written by SetState is read back by GetState. -/
theorem setState_absence_contract_witness :
    (NewQueryPeerset id 0).SetState 3 PeerState.PeerWaiting = none ∧
    (NewQueryPeerset id 0).GetState 3 = none ∧
    (NewQueryPeerset id 0).GetReferrer 3 = none :=
  (setState_absence_contract (NewQueryPeerset id 0) 3 PeerState.PeerWaiting).1
    (by simp [Present, NewQueryPeerset])

/-- C7: the frame of SetState.  Writing state s to a present identity p
succeeds, rewrites exactly the record found for p, keeping its identity,
distance and referrer (only the state field changes), leaves every other
position of the record list untouched, preserves the length (no record is
added or removed), and leaves the key, the hash and the sorted flag alone. -/
theorem setState_frame (qp : QueryPeerset) (p : PeerId) (s : PeerState)
    (h : Present qp p) :
    ∃ (qp2 : QueryPeerset) (i : Nat) (r : queryPeerState),
      qp.SetState p s = some qp2 ∧
      qp.find p = (i : Int) ∧
      qp.all[i]? = some r ∧ r.id = p ∧
      qp2.all[i]? = some { r with state := s } ∧
      qp2.key = qp.key ∧ qp2.toPoint = qp.toPoint ∧ qp2.sorted = qp.sorted ∧
      qp2.all.length = qp.all.length ∧
      (∀ j : Nat, j ≠ i → qp2.all[j]? = qp.all[j]?) := by
  rcases present_findIdx? qp p h with ⟨i, hi⟩
  rcases List.findIdx?_eq_some_iff_getElem.mp hi with ⟨hilt, hpi, _⟩
  refine ⟨_, i, qp.all[i], setState_of_findIdx? qp p s i hi,
    find_eq_of_findIdx? qp p i hi, List.getElem?_eq_getElem hilt,
    by simpa using hpi, ?_, rfl, rfl, rfl, List.length_modify _ _ _, ?_⟩
  · rw [List.getElem?_modify, List.getElem?_eq_getElem hilt]
    simp
  · intro j hj
    rw [List.getElem?_modify]
    cases hlj : qp.all[j]? with
    | none => rfl
    | some a => simp [Ne.symm hj]

/-- Witness for C7: a SetState on a present identity does not panic. -/
theorem setState_frame_witness :
    ((NewQueryPeerset id 0).TryAdd 3 0).2.SetState 3 PeerState.PeerQueried ≠
      none := by
  obtain ⟨qp2, i, r, hset, _⟩ :=
    setState_frame ((NewQueryPeerset id 0).TryAdd 3 0).2 3 PeerState.PeerQueried
      (present_tryAdd_self (NewQueryPeerset id 0) 3 0)
  simp [hset]

lemma map_modify_of_comp_eq {α β : Type} (g : α → β) (f : α → α)
    (hf : ∀ x, g (f x) = g x) (i : Nat) (l : List α) :
    (l.modify f i).map g = l.map g := by
  apply List.ext_getElem?
  intro m
  rw [List.getElem?_map, List.getElem?_map, List.getElem?_modify]
  cases l[m]? with
  | none => rfl
  | some a =>
    by_cases him : i = m
    · simp [him, hf]
    · simp [him]

lemma pairwise_leKey_modify (k : Nat → PeerId → Int) (s : PeerState)
    (i : Nat) (l : List queryPeerState) (h : l.Pairwise (leKey k)) :
    (l.modify (fun r => { r with state := s }) i).Pairwise (leKey k) := by
  have hmap : (l.modify (fun r => { r with state := s }) i).map (keyOf k) =
      l.map (keyOf k) :=
    map_modify_of_comp_eq (keyOf k) (fun r => { r with state := s })
      (fun x => rfl) i l
  have h1 : List.Pairwise (fun a b : Int => a ≤ b) (l.map (keyOf k)) :=
    List.pairwise_map.mpr h
  rw [← hmap] at h1
  have h2 := (@List.pairwise_map _ _ (keyOf k) _ _).mp h1
  exact h2.imp (fun hab => hab)

lemma leB_trans (k : Nat → PeerId → Int) (a b c : queryPeerState)
    (hab : (!(lessKey k b a)) = true) (hbc : (!(lessKey k c b)) = true) :
    (!(lessKey k c a)) = true := by
  simp only [lessKey, Bool.not_eq_eq_eq_not, Bool.not_true, decide_eq_false_iff_not,
    not_lt] at hab hbc ⊢
  exact le_trans hab hbc

lemma leB_total (k : Nat → PeerId → Int) (a b : queryPeerState) :
    ((!(lessKey k b a)) || (!(lessKey k a b))) = true := by
  simp only [lessKey, Bool.not_eq_eq_eq_not, Bool.not_true, decide_eq_false_iff_not,
    not_lt, Bool.or_eq_true]
  omega

lemma sort_all_perm (less : queryPeerState → queryPeerState → Bool)
    (qp : QueryPeerset) : (qp.sort less).all.Perm qp.all := by
  unfold QueryPeerset.sort
  split
  · exact List.Perm.refl _
  · exact List.mergeSort_perm qp.all _

lemma sort_pairwise (k : Nat → PeerId → Int) (qp : QueryPeerset)
    (hinv : SortInv k qp) :
    (qp.sort (lessKey k)).all.Pairwise (leKey k) := by
  unfold QueryPeerset.sort
  split
  · exact hinv (by assumption)
  · have hs := List.sorted_mergeSort (leB_trans k) (leB_total k) qp.all
    refine hs.imp ?_
    intro a b hab
    simpa [lessKey, leKey, keyOf, not_lt] using hab

lemma getClosestN_snd (less : queryPeerState → queryPeerState → Bool)
    (qp : QueryPeerset) (n : Int) (states : List PeerState) :
    (qp.GetClosestNInStates less n states).2 = qp.sort less := by
  simp only [QueryPeerset.GetClosestNInStates]
  split <;> rfl

lemma getClosestN_fst (less : queryPeerState → queryPeerState → Bool)
    (qp : QueryPeerset) (n : Int) (hn : 0 ≤ n) (states : List PeerState) :
    (qp.GetClosestNInStates less n states).1 =
      some ((((qp.sort less).all.filter
        (fun r => decide (r.state ∈ states))).map (fun r => r.id)).take n.toNat) := by
  simp only [QueryPeerset.GetClosestNInStates]
  split
  · simp [hn]
  · rename_i hlen
    have hle : ((((qp.sort less).all.filter
        (fun r => decide (r.state ∈ states))).map (fun r => r.id)).length) ≤
        n.toNat := by
      omega
    rw [List.take_of_length_le hle]

lemma setState_some_shape (qp : QueryPeerset) (p : PeerId) (s : PeerState)
    (qp2 : QueryPeerset) (h : qp.SetState p s = some qp2) :
    qp2 = { qp with
      all := qp.all.modify (fun r => { r with state := s }) (qp.find p).toNat } := by
  unfold QueryPeerset.SetState at h
  by_cases h0 : 0 ≤ qp.find p
  · rw [if_pos h0] at h
    exact (Option.some_inj.mp h).symm
  · rw [if_neg h0] at h
    exact absurd h (by simp)

lemma sortInv_applyOp (k : Nat → PeerId → Int) (qp : QueryPeerset) (op : QOp)
    (h : SortInv k qp) : SortInv k (applyOp (lessKey k) qp op) := by
  cases op with
  | tryAdd p r =>
    show SortInv k (qp.TryAdd p r).2
    by_cases hp : Present qp p
    · rw [tryAdd_of_present qp p r hp]; exact h
    · rw [tryAdd_of_absent qp p r hp]
      intro hc
      exact absurd hc (by simp)
  | setState p s =>
    show SortInv k ((qp.SetState p s).getD qp)
    cases hset : qp.SetState p s with
    | none => exact h
    | some qp2 =>
      rw [setState_some_shape qp p s qp2 hset]
      intro hs
      exact pairwise_leKey_modify k s _ qp.all (h hs)
  | getClosestN n states =>
    show SortInv k (qp.GetClosestNInStates (lessKey k) n states).2
    rw [getClosestN_snd]
    intro _
    exact sort_pairwise k qp h

lemma sortInv_applyOps (k : Nat → PeerId → Int) (ops : List QOp)
    (qp : QueryPeerset) (h : SortInv k qp) :
    SortInv k (applyOps (lessKey k) qp ops) := by
  induction ops generalizing qp with
  | nil => exact h
  | cons op rest ih =>
    exact ih (applyOp (lessKey k) qp op) (sortInv_applyOp k qp op h)

lemma sortInv_new (k : Nat → PeerId → Int) (toPt : PeerId → Nat) (kt : Nat) :
    SortInv k (NewQueryPeerset toPt kt) := by
  intro h
  exact absurd h (by simp [NewQueryPeerset])

/-- C4: the lazy-sort invariant.  Every peer set reachable from
NewQueryPeerset through TryAdd, SetState and the retrieval-triggered sort
satisfies: when the sorted flag is set, the record list is in comparator
order.  Moreover an inserting TryAdd clears the flag, a successful SetState
never changes it, and the sort method returns its receiver untouched
whenever the flag is already set (it recomputes only when the flag is
false). -/
theorem lazy_sort_invariant (k : Nat → PeerId → Int) (toPt : PeerId → Nat)
    (kt : Nat) (ops : List QOp) :
    SortInv k (applyOps (lessKey k) (NewQueryPeerset toPt kt) ops) ∧
    (∀ (qp : QueryPeerset) (p r : PeerId),
      (qp.TryAdd p r).1 = true → (qp.TryAdd p r).2.sorted = false) ∧
    (∀ (qp qp2 : QueryPeerset) (p : PeerId) (s : PeerState),
      qp.SetState p s = some qp2 → qp2.sorted = qp.sorted) ∧
    (∀ (qp : QueryPeerset) (less : queryPeerState → queryPeerState → Bool),
      qp.sorted = true → qp.sort less = qp) := by
  refine ⟨sortInv_applyOps k ops _ (sortInv_new k toPt kt), ?_, ?_, ?_⟩
  · intro qp p r hadd
    by_cases hp : Present qp p
    · rw [tryAdd_of_present qp p r hp] at hadd ⊢
      exact absurd hadd (by simp)
    · rw [tryAdd_of_absent qp p r hp]
  · intro qp qp2 p s hset
    rw [setState_some_shape qp p s qp2 hset]
  · intro qp less hs
    unfold QueryPeerset.sort
    rw [if_pos hs]

/-- Witness for C4: an inserting TryAdd on a concrete set clears the sorted
flag. -/
theorem lazy_sort_invariant_witness :
    ((NewQueryPeerset id 0).TryAdd 3 0).2.sorted = false :=
  (lazy_sort_invariant (fun d _ => (d : Int)) id 0 []).2.1
    (NewQueryPeerset id 0) 3 0 (by decide)

/-- C1: functional correctness of GetClosestNInStates on any peer set
satisfying the lazy-sort invariant, for any comparator of the source shape
(plain distance or scorer output, both instances of lessKey).  With n
non-negative the call succeeds and returns a sequence that has at most n
elements, contains only identities of records whose current state is among
the requested ones, is the identity image of a comparator-ordered list of
records of the set (ascending distance, or ascending score), and contains
the identity of every matching record whenever fewer than n records
match. -/
theorem getClosestNInStates_spec (k : Nat → PeerId → Int) (qp : QueryPeerset)
    (n : Int) (states : List PeerState) (hinv : SortInv k qp) (hn : 0 ≤ n) :
    ∃ l, (qp.GetClosestNInStates (lessKey k) n states).1 = some l ∧
      (l.length : Int) ≤ n ∧
      (∀ pid ∈ l, ∃ rec ∈ qp.all, rec.id = pid ∧ rec.state ∈ states) ∧
      (∃ recs : List queryPeerState, recs.Pairwise (leKey k) ∧
        recs.map (fun rec => rec.id) = l ∧ ∀ rec ∈ recs, rec ∈ qp.all) ∧
      (((qp.all.filter (fun rec => decide (rec.state ∈ states))).length : Int) < n →
        ∀ rec ∈ qp.all, rec.state ∈ states → rec.id ∈ l) := by
  have hfst := getClosestN_fst (lessKey k) qp n hn states
  set F := (qp.sort (lessKey k)).all.filter (fun r => decide (r.state ∈ states))
    with hF
  have hperm : F.Perm (qp.all.filter (fun r => decide (r.state ∈ states))) :=
    (sort_all_perm (lessKey k) qp).filter _
  have hPF : F.Pairwise (leKey k) :=
    (sort_pairwise k qp hinv).filter _
  refine ⟨_, hfst, ?_, ?_, ?_, ?_⟩
  · have := List.length_take n.toNat (F.map (fun r => r.id))
    omega
  · intro pid hpid
    have hmem : pid ∈ F.map (fun r => r.id) := List.mem_of_mem_take hpid
    rcases List.mem_map.mp hmem with ⟨rec, hrecF, hid⟩
    rcases List.mem_filter.mp hrecF with ⟨hrecS, hdec⟩
    exact ⟨rec, ((sort_all_perm (lessKey k) qp).mem_iff).mp hrecS, hid,
      of_decide_eq_true hdec⟩
  · refine ⟨F.take n.toNat,
      List.Pairwise.sublist (List.take_sublist _ _) hPF,
      (List.map_take _ _ _).symm ▸ rfl, ?_⟩
    intro rec hrec
    have hrecF : rec ∈ F := List.mem_of_mem_take hrec
    exact ((sort_all_perm (lessKey k) qp).mem_iff).mp
      (List.mem_filter.mp hrecF).1
  · intro hlt rec hrec hst
    have hlenF : F.length =
        (qp.all.filter (fun r => decide (r.state ∈ states))).length :=
      hperm.length_eq
    have hfull : (F.map (fun r => r.id)).take n.toNat = F.map (fun r => r.id) := by
      apply List.take_of_length_le
      simp only [List.length_map]
      omega
    rw [hfull]
    have hrecF : rec ∈ F :=
      hperm.mem_iff.mpr (List.mem_filter.mpr ⟨hrec, decide_eq_true hst⟩)
    exact List.mem_map.mpr ⟨rec, hrecF, rfl⟩

/-- Witness for C1: the call succeeds on a concrete two-element set. -/
theorem getClosestNInStates_spec_witness :
    (((NewQueryPeerset id 0).TryAdd 3 0).2.GetClosestNInStates
      (lessKey (fun d _ => (d : Int))) 2 [PeerState.PeerHeard]).1 ≠ none := by
  obtain ⟨l, hl, _⟩ := getClosestNInStates_spec (fun d _ => (d : Int))
    ((NewQueryPeerset id 0).TryAdd 3 0).2 2 [PeerState.PeerHeard]
    (by intro h; exact absurd h (by decide)) (by decide)
  simp [hl]

lemma applyOp_indep (less1 less2 : queryPeerState → queryPeerState → Bool)
    (qp : QueryPeerset) (op : QOp) (hop : op.usesSort = false) :
    applyOp less1 qp op = applyOp less2 qp op := by
  cases op with
  | tryAdd p r => rfl
  | setState p s => rfl
  | getClosestN n states => simp [QOp.usesSort] at hop

lemma applyOps_indep (less1 less2 : queryPeerState → queryPeerState → Bool)
    (qp : QueryPeerset) (ops : List QOp)
    (hops : ∀ op ∈ ops, op.usesSort = false) :
    applyOps less1 qp ops = applyOps less2 qp ops := by
  induction ops generalizing qp with
  | nil => rfl
  | cons op rest ih =>
    show applyOps less1 (applyOp less1 qp op) rest =
      applyOps less2 (applyOp less2 qp op) rest
    rw [applyOp_indep less1 less2 qp op (hops op (List.mem_cons_self op rest))]
    exact ih _ (fun o ho => hops o (List.mem_cons_of_mem op ho))

lemma getClosestInStates_perm (less : queryPeerState → queryPeerState → Bool)
    (qp : QueryPeerset) (states : List PeerState) :
    ∃ l, (qp.GetClosestInStates less states).1 = some l ∧
      l.Perm ((qp.all.filter
        (fun r => decide (r.state ∈ states))).map (fun r => r.id)) := by
  unfold QueryPeerset.GetClosestInStates
  rw [getClosestN_fst less qp _ (Int.natCast_nonneg _) states]
  refine ⟨_, rfl, ?_⟩
  have hperm := (sort_all_perm less qp).filter
    (fun r => decide (r.state ∈ states))
  have hlen : ((qp.sort less).all.filter
      (fun r => decide (r.state ∈ states))).length ≤ qp.all.length :=
    le_trans (List.length_filter_le _ _) (le_of_eq (sort_all_perm less qp).length_eq)
  have hle : (((qp.sort less).all.filter
      (fun r => decide (r.state ∈ states))).map (fun r => r.id)).length ≤
      ((qp.all.length : Int)).toNat := by
    simp only [List.length_map, Int.toNat_natCast]
    exact hlen
  rw [List.take_of_length_le hle]
  exact hperm.map _

/-- C8: scorer noninterference on membership.  A sequence of TryAdd and
SetState operations produces literally the same peer-set state whether the
comparator is the plain-distance one or the scorer one (neither operation
consults the comparator), and the retrievals of the two runs return the
same identities up to order: enabling the scorer can reorder the output but
never changes which peers are tracked or returned. -/
theorem scorer_noninterference (score : Nat → PeerId → Int)
    (toPt : PeerId → Nat) (kt : Nat) (ops : List QOp)
    (hops : ∀ op ∈ ops, op.usesSort = false) (states : List PeerState) :
    (applyOps lessDistance (NewQueryPeerset toPt kt) ops).all =
      (applyOps (lessScored score) (NewQueryPeerset toPt kt) ops).all ∧
    ∃ lD lS,
      ((applyOps lessDistance (NewQueryPeerset toPt kt) ops).GetClosestInStates
        lessDistance states).1 = some lD ∧
      ((applyOps (lessScored score) (NewQueryPeerset toPt kt) ops).GetClosestInStates
        (lessScored score) states).1 = some lS ∧
      lD.Perm lS := by
  have heq : applyOps lessDistance (NewQueryPeerset toPt kt) ops =
      applyOps (lessScored score) (NewQueryPeerset toPt kt) ops :=
    applyOps_indep lessDistance (lessScored score) _ ops hops
  refine ⟨by rw [heq], ?_⟩
  rcases getClosestInStates_perm lessDistance
    (applyOps lessDistance (NewQueryPeerset toPt kt) ops) states with
    ⟨lD, hD, hDperm⟩
  rcases getClosestInStates_perm (lessScored score)
    (applyOps (lessScored score) (NewQueryPeerset toPt kt) ops) states with
    ⟨lS, hS, hSperm⟩
  refine ⟨lD, lS, hD, hS, ?_⟩
  rw [heq] at hDperm
  exact hDperm.trans hSperm.symm

/-- Witness for C8: two inserts, then retrieval under either comparator
tracks the same records. -/
theorem scorer_noninterference_witness :
    (applyOps lessDistance (NewQueryPeerset id 0)
      [QOp.tryAdd 1 0, QOp.tryAdd 2 0]).all =
    (applyOps (lessScored fun _ _ => 0) (NewQueryPeerset id 0)
      [QOp.tryAdd 1 0, QOp.tryAdd 2 0]).all :=
  (scorer_noninterference (fun _ _ => 0) id 0
    [QOp.tryAdd 1 0, QOp.tryAdd 2 0] (by decide) []).1

end KadLookup
